import Mathlib

/-!
Verification development for the Task Resolution & Fallback Orchestration
layer of the claude-task-master VS Code extension (`src/taskMasterClient.ts`).

The TypeScript source is shallowly embedded: JSON values become an inductive
`Json` type with JavaScript truthiness and property access, tasks become a
recursive `Task` record, and each method of `TaskMasterClient` that the claims
touch becomes a pure Lean function over those types.  Throwing code is
modelled with `Option`/`Except`.
-/

namespace TaskMaster

/-! ## JavaScript value model

`Json` covers the values produced by `JSON.parse` plus `undefined`, the JavaScript
`undefined` that property access on a non-object (or a missing key) yields.
Numbers are modelled as integers; every numeric literal in the relevant data
(task ids, counts) is integral. -/

inductive Json where
  | null : Json
  | undefined : Json
  | bool : Bool → Json
  | num : Int → Json
  | str : String → Json
  | arr : List Json → Json
  | obj : List (String × Json) → Json

/-- JavaScript truthiness: `null`, `undefined`, `false`, `0` and `""` are
falsy; every object and array (including empty ones) is truthy. -/
def truthy : Json → Bool
  | .null => false
  | .undefined => false
  | .bool b => b
  | .num n => n != 0
  | .str s => s ≠ ""
  | .arr _ => true
  | .obj _ => true

/-- Property access `v[k]`.  On an object it is the (first) binding of the
key, on an array a numeric string indexes the elements, and on every other
value a property access yields `undefined`.  (Access on `null` throws in
JavaScript; the embedded code only performs it on values it has already
tested to be truthy, except for the document root, where the `null` case is
handled explicitly.) -/
def jsGet (v : Json) (k : String) : Json :=
  match v with
  | .obj fields =>
    match fields.find? (fun p => p.1 = k) with
    | some p => p.2
    | none => .undefined
  | .arr xs =>
    match k.toNat? with
    | some i => (xs.getD i .undefined)
    | none => .undefined
  | _ => .undefined

/-- `Array.isArray`. -/
def isArr : Json → Bool
  | .arr _ => true
  | _ => false

/-- The elements of an array value (only applied to values already known to
be arrays). -/
def arrElems : Json → List Json
  | .arr xs => xs
  | _ => []

/-- `typeof v === 'object'` (true for objects, arrays and `null`). -/
def typeofObject : Json → Bool
  | .obj _ => true
  | .arr _ => true
  | .null => true
  | _ => false

/-! ## Status normalizer (`normalizeStatus` / `denormalizeStatus`)

Statuses are raw strings on both sides; the TypeScript `TaskStatus` union is
the set of canonical strings.  The lookup tables are object literals indexed
by the status string with a `|| default` fallback. -/

/-- `TaskMasterClient.normalizeStatus`: map a Task Master status value to the
extension's canonical status; any unrecognized value maps to `todo`. -/
def normalizeStatus (status : String) : String :=
  if status = "pending" then "todo"
  else if status = "todo" then "todo"
  else if status = "in-progress" then "in-progress"
  else if status = "in_progress" then "in-progress"
  else if status = "completed" then "completed"
  else if status = "done" then "completed"
  else if status = "blocked" then "blocked"
  else if status = "deferred" then "deferred"
  else if status = "cancelled" then "cancelled"
  else if status = "review" then "review"
  else "todo"

/-- `TaskMasterClient.denormalizeStatus`: map a canonical extension status
back to a Task Master status value; an unmapped status is returned
unchanged (`statusMap[status] || status`). -/
def denormalizeStatus (status : String) : String :=
  if status = "todo" then "pending"
  else if status = "in-progress" then "in-progress"
  else if status = "completed" then "done"
  else if status = "blocked" then "blocked"
  else if status = "deferred" then "deferred"
  else if status = "cancelled" then "cancelled"
  else if status = "review" then "review"
  else status

/-- The keys of the `normalizeStatus` mapping table, in source order. -/
def rawStatusTable : List String :=
  ["pending", "todo", "in-progress", "in_progress", "completed", "done",
   "blocked", "deferred", "cancelled", "review"]

/-- The canonical status vocabulary (the `TaskStatus` union in `types.ts`). -/
def canonicalStatuses : List String :=
  ["todo", "in-progress", "completed", "blocked", "deferred", "cancelled", "review"]

/-! ## Format detector / extractor (`extractTasksFromContainer`)

`stateTag` is the current tag as resolved from `state.json`
(`stateData.currentTag || 'master'`; callers that cannot read the state file
resolve it to `"master"`).  Both reads of `state.json` inside the method see
the same file, so the resolved value is a single parameter. -/

/-- The record returned by `extractTasksFromContainer` (the
`originalContainer` field is the input itself and is omitted). -/
structure ExtractResult where
  tasks : List Json
  isTaggedFormat : Bool
  currentTag : String

/-- Shape test 2: `tasksContainer.master && tasksContainer.master.tasks &&
Array.isArray(tasksContainer.master.tasks)`. -/
def directTagShape (c : Json) : Bool :=
  truthy (jsGet c "master") && truthy (jsGet (jsGet c "master") "tasks")
    && isArr (jsGet (jsGet c "master") "tasks")

/-- Shape test 3: `tasksContainer.tags && typeof tasksContainer.tags ===
'object'`. -/
def nestedTagShape (c : Json) : Bool :=
  truthy (jsGet c "tags") && typeofObject (jsGet c "tags")

/-- Shape test 4: `tasksContainer.tasks && Array.isArray(tasksContainer.tasks)`. -/
def legacyShape (c : Json) : Bool :=
  truthy (jsGet c "tasks") && isArr (jsGet c "tasks")

/-- Tag resolution shared by the two tagged branches: read the current tag's
`tasks` array from `base`, falling back to the `master` tag; with no tasks in
either, throw. -/
def resolveTagTasks (stateTag : String) (base : Json) : Except String ExtractResult :=
  let tagData := jsGet base stateTag
  if truthy tagData && truthy (jsGet tagData "tasks") && isArr (jsGet tagData "tasks") then
    .ok ⟨arrElems (jsGet tagData "tasks"), true, stateTag⟩
  else
    let masterData := jsGet base "master"
    if truthy masterData && truthy (jsGet masterData "tasks")
        && isArr (jsGet masterData "tasks") then
      .ok ⟨arrElems (jsGet masterData "tasks"), true, "master"⟩
    else
      .error ("No tasks found in tag '" ++ stateTag ++ "' or 'master' tag.")

/-- `TaskMasterClient.extractTasksFromContainer`.  The four supported shapes
are tested in source order — direct array, direct-tag, nested-tag, legacy —
and the first match wins; a document matching none of them throws
`'Unknown tasks.json format'`.  A `null` document throws a `TypeError` at
the first property access (`tasksContainer.master`). -/
def extractTasksFromContainer (stateTag : String) (c : Json) : Except String ExtractResult :=
  match c with
  | .arr xs => .ok ⟨xs, false, "master"⟩
  | .null => .error "TypeError: Cannot read properties of null"
  | _ =>
    if directTagShape c then resolveTagTasks stateTag c
    else if nestedTagShape c then resolveTagTasks stateTag (jsGet c "tags")
    else if legacyShape c then .ok ⟨arrElems (jsGet c "tasks"), false, "master"⟩
    else .error "Unknown tasks.json format"

/-- The format-detection block of `TaskMasterClient.getTasks` (the read
path duplicates the extractor's shape tests but yields an empty raw-task
list instead of throwing when the current tag and `master` are both
missing, and also when no shape matches). -/
def selectRawTasks (stateTag : String) (parsed : Json) : Except String (List Json) :=
  match parsed with
  | .arr xs => .ok xs
  | .null => .error "TypeError: Cannot read properties of null"
  | _ =>
    if directTagShape parsed then
      let tagData := jsGet parsed stateTag
      if truthy tagData && truthy (jsGet tagData "tasks") && isArr (jsGet tagData "tasks") then
        .ok (arrElems (jsGet tagData "tasks"))
      else
        let masterData := jsGet parsed "master"
        if truthy masterData && truthy (jsGet masterData "tasks")
            && isArr (jsGet masterData "tasks") then
          .ok (arrElems (jsGet masterData "tasks"))
        else .ok []
    else if nestedTagShape parsed then
      let base := jsGet parsed "tags"
      let tagData := jsGet base stateTag
      if truthy tagData && truthy (jsGet tagData "tasks") && isArr (jsGet tagData "tasks") then
        .ok (arrElems (jsGet tagData "tasks"))
      else
        let masterData := jsGet base "master"
        if truthy masterData && truthy (jsGet masterData "tasks")
            && isArr (jsGet masterData "tasks") then
          .ok (arrElems (jsGet masterData "tasks"))
        else .ok []
    else if legacyShape parsed then .ok (arrElems (jsGet parsed "tasks"))
    else .ok []

/-! ## Version compatibility gate (`checkVersionCompatibility`) -/

/-- The record returned by `checkVersionCompatibility`. -/
structure VersionCheckResult where
  compatible : Bool
  cliVersion : Option String
  mcpVersion : Option String
  warning : Option String

/-- JavaScript falsiness of a nullable string (`!v`): `null` and the empty
string are falsy. -/
def strFalsy : Option String → Bool
  | none => true
  | some s => s = ""

/-- One attempt of the regex `(\d+)\.(\d+)\.(\d+)` anchored at the head of
the character list: a maximal digit run, a literal dot, a maximal digit run,
a literal dot, a maximal digit run. -/
def tryMatchVer (cs : List Char) : Option (Nat × Nat × Nat) :=
  let d1 := cs.takeWhile Char.isDigit
  let r1 := cs.dropWhile Char.isDigit
  if d1.isEmpty then none else
  match r1 with
  | '.' :: r2 =>
    let d2 := r2.takeWhile Char.isDigit
    let r3 := r2.dropWhile Char.isDigit
    if d2.isEmpty then none else
    match r3 with
    | '.' :: r4 =>
      let d3 := r4.takeWhile Char.isDigit
      if d3.isEmpty then none else
      some (d1.foldl (fun n c => n * 10 + (c.toNat - 48)) 0,
            d2.foldl (fun n c => n * 10 + (c.toNat - 48)) 0,
            d3.foldl (fun n c => n * 10 + (c.toNat - 48)) 0)
    | _ => none
  | _ => none

/-- Leftmost match of `(\d+)\.(\d+)\.(\d+)` (`String.prototype.match`
tries each start position from the left). -/
def findVer : List Char → Option (Nat × Nat × Nat)
  | [] => none
  | c :: cs =>
    match tryMatchVer (c :: cs) with
    | some v => some v
    | none => findVer cs

/-- `parseCLIVersion` inside `checkVersionCompatibility`: first
`major.minor.patch` match in the string, `[0, 0, 0]` when there is none. -/
def parseCLIVersion (v : String) : Nat × Nat × Nat :=
  (findVer v.data).getD (0, 0, 0)

/-- `TaskMasterClient.checkVersionCompatibility`, as a function of the two
(cached) channel versions.  `none` models a `null` version. -/
def checkVersionCompatibility (cliV mcpV : Option String) : VersionCheckResult :=
  if strFalsy cliV && strFalsy mcpV then
    ⟨true, none, none,
      some "Unable to determine version compatibility - both CLI and MCP unavailable"⟩
  else if strFalsy cliV then
    ⟨true, none, mcpV, some "CLI not available, using MCP only"⟩
  else if strFalsy mcpV then
    ⟨true, cliV, none, some "MCP not available, using CLI only"⟩
  else
    let cli := (cliV.getD "")
    let mcp := (mcpV.getD "")
    let cp := parseCLIVersion cli
    let mp := parseCLIVersion mcp
    if cp.1 ≠ mp.1 then
      ⟨false, cliV, mcpV,
        some ("Major version mismatch: CLI v" ++ cli ++ " vs MCP v" ++ mcp
          ++ ". This may cause data inconsistencies.")⟩
    else if (cp.2.1 : Int) - mp.2.1 > 20 ∨ (mp.2.1 : Int) - cp.2.1 > 20 then
      ⟨false, cliV, mcpV,
        some ("Significant version difference: CLI v" ++ cli ++ " vs MCP v" ++ mcp
          ++ ". Consider updating both to the same version.")⟩
    else
      ⟨true, cliV, mcpV, none⟩

/-! ## Task model

The canonical `Task` entity (`types.ts`), restricted to the fields the
embedded operations read or write.  Statuses are kept as raw strings: the
file-based mutation paths operate on the raw objects returned by
`extractTasksFromContainer`, whose `status` fields are Task Master raw
values.  `subtasks` is always a list; a raw task without a `subtasks`
property behaves exactly like one with an empty array in every embedded
operation (both the scan and the recursion of the subtask search are no-ops
on an empty list, mirroring the falsy-`subtasks` skip). -/

inductive Task where
  | mk (id title status created updated : String)
       (parentId : Option String) (subtasks : List Task) : Task

def Task.id : Task → String
  | .mk i _ _ _ _ _ _ => i

def Task.title : Task → String
  | .mk _ t _ _ _ _ _ => t

def Task.status : Task → String
  | .mk _ _ s _ _ _ _ => s

def Task.created : Task → String
  | .mk _ _ _ c _ _ _ => c

def Task.updated : Task → String
  | .mk _ _ _ _ u _ _ => u

def Task.parentId : Task → Option String
  | .mk _ _ _ _ _ p _ => p

def Task.subtasks : Task → List Task
  | .mk _ _ _ _ _ _ s => s

/-- Mutation `task.status = s; task.updated = now` on a task object. -/
def Task.setStatusUpdated (t : Task) (s now : String) : Task :=
  match t with
  | .mk i ti _ c _ p subs => .mk i ti s c now p subs

/-- Replacement of a task's `subtasks` array. -/
def Task.withSubtasks (t : Task) (subs : List Task) : Task :=
  match t with
  | .mk i ti s c u p _ => .mk i ti s c u p subs

/-- A forest together with every recursively nested subtask, in traversal
order. -/
def allNodes : List Task → List Task
  | [] => []
  | .mk i ti s c u p subs :: ts =>
    .mk i ti s c u p subs :: (allNodes subs ++ allNodes ts)

/-! ## File-based `setTaskStatus` (the fallback path of
`TaskMasterClient.setTaskStatus`)

The method reads `tasks.json`, extracts the task list, first scans the main
tasks for an exact id match (prioritizing main tasks over subtasks with the
same id), then searches subtasks recursively; the matched item gets the
denormalized status and a fresh `updated` timestamp, nothing else is
touched, and a missing id throws without writing back.  `now` is the
`new Date().toISOString()` value. -/

/-- The main-task loop: update the first main task whose id matches, leaving
the rest of the list identical; `none` when no main task matches. -/
def setMainStatus (now den taskId : String) : List Task → Option (List Task)
  | [] => none
  | t :: ts =>
    if t.id = taskId then some (t.setStatusUpdated den now :: ts)
    else (setMainStatus now den taskId ts).map (t :: ·)

/-- The inner `for (const subtask of item.subtasks)` scan: update the first
direct subtask whose id matches. -/
def scanDirect (now den taskId : String) : List Task → Option (List Task)
  | [] => none
  | s :: ss =>
    if s.id = taskId then some (s.setStatusUpdated den now :: ss)
    else (scanDirect now den taskId ss).map (s :: ·)

mutual

/-- `updateSubtaskRecursive` over a list of items: try each item in order,
stopping at the first whose subtree yields a match. -/
def updSubList (now den taskId : String) : List Task → Option (List Task)
  | [] => none
  | t :: ts =>
    match updSubItem now den taskId t with
    | some t' => some (t' :: ts)
    | none => (updSubList now den taskId ts).map (t :: ·)

/-- One item of `updateSubtaskRecursive`: scan the item's direct subtasks
for an id match (updating only the matched subtask's `status` and
`updated`), then recurse into the subtasks.  The item itself — in
particular its own `updated` timestamp — is never modified. -/
def updSubItem (now den taskId : String) : Task → Option Task
  | .mk i ti s c u p subs =>
    match scanDirect now den taskId subs with
    | some subs' => some (.mk i ti s c u p subs')
    | none =>
      match updSubList now den taskId subs with
      | some subs' => some (.mk i ti s c u p subs')
      | none => none

end

/-- The mutation core of `TaskMasterClient.setTaskStatus` on the extracted
task list: main tasks first, then the recursive subtask search; `none`
models the `Task with ID ... not found.` throw. -/
def setTaskStatusOnTasks (now taskId status : String) (tasks : List Task) :
    Option (List Task) :=
  let den := denormalizeStatus status
  match setMainStatus now den taskId tasks with
  | some ts => some ts
  | none => updSubList now den taskId tasks

/-- The whole file-fallback run of `setTaskStatus` on a stored document
(its extracted task list): on success the mutated list is written back and
becomes the new document state; on a missing id the method throws before
any write, so the document state is unchanged. -/
def setTaskStatusFileRun (now taskId status : String) (doc : List Task) :
    Except String Unit × List Task :=
  match setTaskStatusOnTasks now taskId status doc with
  | some ts => (.ok (), ts)
  | none => (.error ("Task with ID " ++ taskId ++ " not found."), doc)

/-! ## Hierarchy builder (`processTaskHierarchy` / `getParentId`)

The imperative method mutates shared task objects: every task is copied into
an id-keyed `Map`, ids are processed sorted by dot-depth and then natural
order, each dotted id is pushed into its parent's `subtasks` (the parent
looked up in the map, so a later push is visible wherever the parent object
already appears), and ids without a parent become roots.  The embedding
keeps the map as the store and materializes the final object graph at the
end: a node's subtasks are exactly the ids attached to it, in processed
(sorted) order, which is the push order of the loop. -/

/-- `task.id.toString().includes('.')`. -/
def hasDot (s : String) : Bool := s.data.any (· = '.')

/-- `(id.match(/\./g) || []).length` — the dot-depth of an id. -/
def dotDepth (s : String) : Nat := s.data.count '.'

/-- `TaskMasterClient.getParentId`: the substring before the last dot
(`taskId.substring(0, taskId.lastIndexOf('.'))`). -/
def getParentId (taskId : String) : String :=
  ⟨(((taskId.data.reverse.dropWhile (· ≠ '.')).drop 1).reverse)⟩

/-- Numeric-aware string comparison modelling
`a.localeCompare(b, undefined, { numeric: true })`: maximal digit runs
compare by numeric value, other characters by code point.  (Fuelled by the
total length, which always suffices.) -/
def natCmpChars : Nat → List Char → List Char → Ordering
  | 0, _, _ => .eq
  | _ + 1, [], [] => .eq
  | _ + 1, [], _ :: _ => .lt
  | _ + 1, _ :: _, [] => .gt
  | fuel + 1, a :: as, b :: bs =>
    if a.isDigit && b.isDigit then
      let na := ((a :: as).takeWhile Char.isDigit).foldl (fun n c => n * 10 + (c.toNat - 48)) 0
      let nb := ((b :: bs).takeWhile Char.isDigit).foldl (fun n c => n * 10 + (c.toNat - 48)) 0
      match compare na nb with
      | .eq => natCmpChars fuel ((a :: as).dropWhile Char.isDigit)
                                ((b :: bs).dropWhile Char.isDigit)
      | o => o
    else
      match compare a.toNat b.toNat with
      | .eq => natCmpChars fuel as bs
      | o => o

/-- The sort comparator of `processTaskHierarchy` as a `≤` test: dot-depth
ascending, ties broken by natural string order. -/
def idLe (a b : String) : Bool :=
  if dotDepth a ≠ dotDepth b then dotDepth a < dotDepth b
  else natCmpChars (a.length + b.length + 1) a.data b.data ≠ .gt

/-- Stable insertion used by `sortIds`. -/
def insertSorted (x : String) : List String → List String
  | [] => [x]
  | y :: ys => if idLe x y then x :: y :: ys else y :: insertSorted x ys

/-- Stable sort of the id list (JavaScript's `Array.prototype.sort` with the
comparator above; V8's sort is stable, as is insertion sort). -/
def sortIds : List String → List String
  | [] => []
  | x :: xs => insertSorted x (sortIds xs)

/-- `Map.prototype.set`: replace the value of an existing key in place,
otherwise append. -/
def mapSet (m : List (String × Task)) (k : String) (v : Task) : List (String × Task) :=
  if m.any (fun p => p.1 = k) then m.map (fun p => if p.1 = k then (k, v) else p)
  else m ++ [(k, v)]

/-- The first pass of `processTaskHierarchy`: `taskMap.set(task.id,
{ ...task, subtasks: task.subtasks || [] })` over the input order. -/
def buildTaskMap (ts : List Task) : List (String × Task) :=
  ts.foldl (fun m t => mapSet m t.id t) []

/-- `Map.prototype.get`. -/
def mapGet (m : List (String × Task)) (k : String) : Option Task :=
  (m.find? (fun p => p.1 = k)).map (·.2)

/-- Materialization of the mutated object graph: the node for id `i` carries
the mapped task's fields, the `parentId` back-reference when `i` was
attached to a present parent, and as subtasks the nodes of the ids attached
to `i` — the dotted ids whose `getParentId` is `i`, in sorted (push)
order.  `fuel` bounds the recursion depth; `processTaskHierarchy` passes
more than the maximal dot-depth, which suffices because each attached child
is one dot deeper than its parent. -/
def buildNode (tm : List (String × Task)) (sorted keys : List String) :
    Nat → String → Task
  | 0, i => .mk i "" "" "" "" none []
  | fuel + 1, i =>
    match mapGet tm i with
    | none => .mk i "" "" "" "" none []
    | some (.mk _ ti s c u p _) =>
      let pid := if hasDot i ∧ keys.contains (getParentId i) then some (getParentId i) else p
      let kids := sorted.filter (fun x => hasDot x && getParentId x = i)
      .mk i ti s c u pid (kids.map (buildNode tm sorted keys fuel))

/-- The key set of the task map, in insertion order (`taskMap.keys()`). -/
def hierKeys (tasks : List Task) : List String :=
  (buildTaskMap tasks).map (·.1)

/-- `sortedTaskIds`: the keys sorted by depth, then natural order. -/
def hierSorted (tasks : List Task) : List String :=
  sortIds (hierKeys tasks)

/-- The maximal dot-depth over the keys (used to size the materialization
fuel). -/
def hierMaxD (tasks : List Task) : Nat :=
  ((hierKeys tasks).map dotDepth).foldl Nat.max 0

/-- The ids pushed to `rootTasks` by the second pass, in processing order:
ids without a dot, and dotted ids whose parent is not in the map. -/
def hierRootIds (tasks : List Task) : List String :=
  (hierSorted tasks).filter
    (fun x => !hasDot x || !(hierKeys tasks).contains (getParentId x))

/-- Materialize the node of one id of the processed map. -/
def hierBuild (tasks : List Task) (fuel : Nat) (i : String) : Task :=
  buildNode (buildTaskMap tasks) (hierSorted tasks) (hierKeys tasks) fuel i

/-- `TaskMasterClient.processTaskHierarchy`: skip when any task already has
subtasks, skip when no id is dotted, otherwise attach every dotted id to
the task whose id is everything before the last dot, keeping ids whose
parent is absent as roots. -/
def processTaskHierarchy (tasks : List Task) : List Task :=
  if tasks.any (fun t => !t.subtasks.isEmpty) then tasks
  else if !tasks.any (fun t => hasDot t.id) then tasks
  else (hierRootIds tasks).map (hierBuild tasks (hierMaxD tasks + 2))

/-! ## Progress counters (`getTaskProgress`) -/

/-- One counter group (`{total, completed, inProgress, todo, blocked}`). -/
structure Counts where
  total : Nat
  completed : Nat
  inProgress : Nat
  todo : Nat
  blocked : Nat
deriving DecidableEq

def Counts.zero : Counts := ⟨0, 0, 0, 0, 0⟩

/-- One loop iteration of the counting closures: `total++` and the `switch`
on `normalizeStatus(task.status)` (deferred / cancelled / review statuses
only count toward `total`). -/
def tallyOne (c : Counts) (st : String) : Counts :=
  let c := { c with total := c.total + 1 }
  let n := normalizeStatus st
  if n = "completed" then { c with completed := c.completed + 1 }
  else if n = "in-progress" then { c with inProgress := c.inProgress + 1 }
  else if n = "todo" then { c with todo := c.todo + 1 }
  else if n = "blocked" then { c with blocked := c.blocked + 1 }
  else c

/-- `countMainTasks`: tally only the top-level tasks. -/
def countMainTasks (ts : List Task) : Counts :=
  ts.foldl (fun c t => tallyOne c t.status) .zero

mutual

/-- `countAllItems` over a list: tally each task and recurse into its
subtasks. -/
def countAllList (c : Counts) : List Task → Counts
  | [] => c
  | t :: ts => countAllList (countAllTask c t) ts

/-- `countAllItems` on one task. -/
def countAllTask (c : Counts) : Task → Counts
  | .mk _ _ st _ _ _ subs => countAllList (tallyOne c st) subs

end

/-- The record returned by `getTaskProgress`: the legacy top-level counters
plus the `mainTasks` and `allItems` groups. -/
structure Progress where
  total : Nat
  completed : Nat
  inProgress : Nat
  todo : Nat
  blocked : Nat
  mainTasks : Counts
  allItems : Counts
deriving DecidableEq

/-- `TaskMasterClient.getTaskProgress` as a function of the `getTasks`
result: the legacy top-level fields repeat the all-items counters for
backward compatibility. -/
def getTaskProgress (tasks : List Task) : Progress :=
  let m := countMainTasks tasks
  let a := countAllList .zero tasks
  ⟨a.total, a.completed, a.inProgress, a.todo, a.blocked, m, a⟩

/-! ## Channel selection / fallback orchestration

The channel environment abstracts the two external channels and the task
document: which channel probes succeed, what the protocol (MCP) call
returns, and what `tasks.json` holds.  `getTasksRun` and
`setTaskStatusRun` replay the control flow of `TaskMasterClient.getTasks`
and `TaskMasterClient.setTaskStatus`, recording every channel attempt in
order. -/

inductive Chan where
  | mcp : Chan
  | cli : Chan
  | file : Chan
deriving DecidableEq

structure ChannelEnv where
  /-- Cached `task-master --version` output (`null` when the probe failed). -/
  cliVersion : Option String
  /-- MCP server version (`null` when unavailable). -/
  mcpVersion : Option String
  /-- The `preferCLIOnVersionMismatch` configuration value. -/
  preferCLIOnMismatch : Bool
  /-- Whether `isMCPServerAvailable()` reports the MCP server reachable. -/
  mcpServerAvailable : Bool
  /-- Outcome of `mcpClient.getTasks` followed by validation: `some` is a
  validated task list, `none` a throw or a failed validation. -/
  mcpGetTasks : Option (List Task)
  /-- Whether `mcpClient.setTaskStatus` succeeds. -/
  mcpSetStatusOk : Bool
  /-- The extracted task list of `tasks.json` (`none`: file missing, in
  which case the read falls back to individual task files — still direct
  file access — and yields an empty list here). -/
  fileTasks : Option (List Task)

/-- The control flow of `TaskMasterClient.getTasks`: consult the version
gate, possibly skip MCP (version mismatch + CLI preference + known CLI
version), otherwise attempt MCP once, and on failure fall back directly to
reading the task file.  Returns the attempted channels in order and the
produced task list. -/
def getTasksRun (env : ChannelEnv) : List Chan × List Task :=
  let vc := checkVersionCompatibility env.cliVersion env.mcpVersion
  let shouldSkipMCP := !vc.compatible && env.preferCLIOnMismatch && vc.cliVersion.isSome
  let fileRead : List Chan × List Task :=
    ([.file], match env.fileTasks with
              | some ts => processTaskHierarchy ts
              | none => [])
  if !shouldSkipMCP && env.mcpServerAvailable then
    match env.mcpGetTasks with
    | some ts => ([.mcp], ts)
    | none => (.mcp :: fileRead.1, fileRead.2)
  else fileRead

/-- The control flow of `TaskMasterClient.setTaskStatus`: attempt MCP once
when the server is available, and on failure (or unavailability) fall back
directly to the file mutation.  Returns the attempted channels in order
and the resulting document state. -/
def setTaskStatusRun (env : ChannelEnv) (now taskId status : String)
    (doc : List Task) : List Chan × (Except String Unit × List Task) :=
  if env.mcpServerAvailable && env.mcpSetStatusOk then ([.mcp], (.ok (), doc))
  else
    let fileStep := setTaskStatusFileRun now taskId status doc
    if env.mcpServerAvailable then ([.mcp, .file], fileStep)
    else ([.file], fileStep)

/-! ## Theorems -/

/-- C4 (counterexample): the claim states `denormalize(s) = s` for every
canonical status except `completed`; but `denormalizeStatus "todo"` is
`"pending"`, not `"todo"`. -/
theorem denormalize_todo_not_identity :
    "todo" ∈ canonicalStatuses ∧
    denormalizeStatus "todo" = "pending" ∧ ("pending" : String) ≠ "todo" := by
  refine ⟨by decide, rfl, by decide⟩

/-- C4 (amended): on the canonical status vocabulary, `denormalizeStatus`
is the identity except for the two synonym pairs: `completed ↦ done` and
`todo ↦ pending`. -/
theorem denormalize_identity_except_synonyms :
    ∀ s, s ∈ canonicalStatuses →
      denormalizeStatus s =
        (if s = "completed" then "done" else if s = "todo" then "pending" else s) := by
  intro s hs
  fin_cases hs <;> rfl

/-- C4 (witness): the amended statement at the concrete status `blocked`. -/
theorem denormalize_identity_except_synonyms_witness :
    "blocked" ∈ canonicalStatuses ∧
    denormalizeStatus "blocked" =
      (if ("blocked" : String) = "completed" then "done"
       else if ("blocked" : String) = "todo" then "pending" else "blocked") :=
  ⟨by decide, denormalize_identity_except_synonyms "blocked" (by decide)⟩

/-- C6: for every raw value in the mapping table, one pass of
`denormalize ∘ normalize` reaches a fixed point of the composed map (the
canonical write token of that status), and every string outside the table
normalizes to `todo` (`normalizeStatus` is total, hence never throws). -/
theorem status_roundtrip_fixed_point :
    (∀ x, x ∈ rawStatusTable →
      denormalizeStatus (normalizeStatus (denormalizeStatus (normalizeStatus x))) =
        denormalizeStatus (normalizeStatus x))
  ∧ (∀ y, y ∉ rawStatusTable → normalizeStatus y = "todo") := by
  constructor
  · intro x hx
    fin_cases hx <;> rfl
  · intro y hy
    simp only [rawStatusTable, List.mem_cons, List.not_mem_nil, or_false, not_or] at hy
    obtain ⟨h1, h2, h3, h4, h5, h6, h7, h8, h9, h10⟩ := hy
    simp [normalizeStatus, h1, h2, h3, h4, h5, h6, h7, h8, h9, h10]

/-- C6 (witness): the fixed-point law at the raw value `done` and the
unknown-input rule at the string `weird`. -/
theorem status_roundtrip_fixed_point_witness :
    ("done" ∈ rawStatusTable ∧
      denormalizeStatus (normalizeStatus (denormalizeStatus (normalizeStatus "done"))) =
        denormalizeStatus (normalizeStatus "done"))
  ∧ ("weird" ∉ rawStatusTable ∧ normalizeStatus "weird" = "todo") :=
  ⟨⟨by decide, status_roundtrip_fixed_point.1 "done" (by decide)⟩,
   ⟨by decide, status_roundtrip_fixed_point.2 "weird" (by decide)⟩⟩

/-- C5: with both channel versions known (non-null, non-empty), the gate
reports compatible exactly when the major segments agree and the minor
segments differ by at most the tolerance 20 (so a minor difference of 5 is
compatible); with either version unknown, the gate fails open: compatible
with an advisory warning. -/
theorem version_gate_policy :
    (∀ cli mcp : String, strFalsy (some cli) = false → strFalsy (some mcp) = false →
      ((checkVersionCompatibility (some cli) (some mcp)).compatible = true ↔
        ((parseCLIVersion cli).1 = (parseCLIVersion mcp).1 ∧
         ((parseCLIVersion cli).2.1 : Int) - ((parseCLIVersion mcp).2.1 : Int) ≤ 20 ∧
         ((parseCLIVersion mcp).2.1 : Int) - ((parseCLIVersion cli).2.1 : Int) ≤ 20)))
  ∧ (∀ cliV mcpV : Option String, (strFalsy cliV || strFalsy mcpV) = true →
      (checkVersionCompatibility cliV mcpV).compatible = true ∧
      (checkVersionCompatibility cliV mcpV).warning.isSome = true) := by
  constructor
  · intro cli mcp h1 h2
    simp only [checkVersionCompatibility, h1, h2, Bool.false_and, Bool.and_false,
      if_false, Bool.false_eq_true, Option.getD_some]
    split_ifs with hmaj hmin
    · simp only [Bool.false_eq_true, false_iff, not_and]
      intro h
      exact absurd h hmaj
    · simp only [Bool.false_eq_true, false_iff, not_and]
      intro _ hle
      rcases hmin with hm | hm
      · omega
      · omega
    · push_neg at hmin
      simp only [true_iff]
      exact ⟨by omega, hmin.1, hmin.2⟩
  · intro cliV mcpV h
    simp only [Bool.or_eq_true] at h
    unfold checkVersionCompatibility
    rcases h with h | h <;> simp [h] <;> split_ifs <;> simp_all

/-- C5 (witness): both versions known, equal majors, minor difference 5:
compatible; and the unknown-CLI case: compatible with a warning. -/
theorem version_gate_policy_witness :
    (strFalsy (some "1.5.0") = false ∧ strFalsy (some "1.10.0") = false ∧
      (checkVersionCompatibility (some "1.5.0") (some "1.10.0")).compatible = true)
  ∧ ((strFalsy none || strFalsy (some "1.0.0")) = true ∧
      (checkVersionCompatibility none (some "1.0.0")).compatible = true ∧
      (checkVersionCompatibility none (some "1.0.0")).warning.isSome = true) :=
  ⟨⟨rfl, rfl,
    (version_gate_policy.1 "1.5.0" "1.10.0" rfl rfl).mpr ⟨by decide, by decide, by decide⟩⟩,
   ⟨rfl,
    (version_gate_policy.2 none (some "1.0.0") rfl).1,
    (version_gate_policy.2 none (some "1.0.0") rfl).2⟩⟩

/-- C7: a parsed document matching none of the four supported shapes —
flat array, direct-tag (`master.tasks` array), nested-tag (`tags` object),
legacy (top-level `tasks` array) — makes `extractTasksFromContainer` fail
with an error (the `Unknown tasks.json format` throw, or the `TypeError` a
`null` document raises at the first property access) instead of guessing a
task list; and the four shape tests are tried in that order with the first
match winning: an array extracts as flat regardless of anything else, the
direct-tag branch is taken whenever its test passes on a non-array, the
nested-tag branch whenever its test passes and the earlier ones fail, and
the legacy branch last. -/
theorem unknown_container_shape_fails :
    ∀ (stateTag : String) (c : Json),
      (isArr c = false → directTagShape c = false → nestedTagShape c = false →
        legacyShape c = false → ∃ e, extractTasksFromContainer stateTag c = .error e) ∧
      (isArr c = true →
        extractTasksFromContainer stateTag c = .ok ⟨arrElems c, false, "master"⟩) ∧
      (isArr c = false → directTagShape c = true →
        extractTasksFromContainer stateTag c = resolveTagTasks stateTag c) ∧
      (isArr c = false → directTagShape c = false → nestedTagShape c = true →
        extractTasksFromContainer stateTag c = resolveTagTasks stateTag (jsGet c "tags")) ∧
      (isArr c = false → directTagShape c = false → nestedTagShape c = false →
        legacyShape c = true →
        extractTasksFromContainer stateTag c =
          .ok ⟨arrElems (jsGet c "tasks"), false, "master"⟩) := by
  intro st c
  cases c
  case arr xs =>
    exact ⟨fun h _ _ _ => by simp [isArr] at h,
           fun _ => by simp [extractTasksFromContainer, arrElems],
           fun h _ => by simp [isArr] at h,
           fun h _ _ => by simp [isArr] at h,
           fun h _ _ _ => by simp [isArr] at h⟩
  case null =>
    exact ⟨fun _ _ _ _ => ⟨_, rfl⟩,
           fun h => by simp [isArr] at h,
           fun _ h => absurd h (by decide),
           fun _ _ h => absurd h (by decide),
           fun _ _ _ h => absurd h (by decide)⟩
  all_goals
    exact ⟨fun _ h2 h3 h4 => ⟨"Unknown tasks.json format",
             by simp [extractTasksFromContainer, h2, h3, h4]⟩,
           fun h => by simp [isArr] at h,
           fun _ h2 => by simp [extractTasksFromContainer, h2],
           fun _ h2 h3 => by simp [extractTasksFromContainer, h2, h3],
           fun _ h2 h3 h4 => by simp [extractTasksFromContainer, h2, h3, h4]⟩

/-- C7 (witness): a concrete object document with none of the four shapes
is rejected. -/
theorem unknown_container_shape_fails_witness :
    isArr (Json.obj [("foo", Json.num 1)]) = false ∧
    directTagShape (Json.obj [("foo", Json.num 1)]) = false ∧
    nestedTagShape (Json.obj [("foo", Json.num 1)]) = false ∧
    legacyShape (Json.obj [("foo", Json.num 1)]) = false ∧
    ∃ e, extractTasksFromContainer "master" (Json.obj [("foo", Json.num 1)]) = .error e :=
  ⟨rfl, rfl, rfl, rfl,
   (unknown_container_shape_fails "master" (Json.obj [("foo", Json.num 1)])).1
     rfl rfl rfl rfl⟩

/-- C10: an object document without a `master.tasks` array, a `tags`
object or a top-level `tasks` array is treated as unknown format even when
it carries another tag key holding a `tasks` array and the persisted state
names that tag as current: `extractTasksFromContainer` throws `Unknown
tasks.json format` and the `getTasks` read path selects no raw tasks, so
no tasks are ever read from a direct-tag document lacking a `master` tag. -/
theorem direct_tag_without_master_unknown :
    ∀ (stateTag : String) (fields : List (String × Json)),
      directTagShape (Json.obj fields) = false →
      nestedTagShape (Json.obj fields) = false →
      legacyShape (Json.obj fields) = false →
      truthy (jsGet (jsGet (Json.obj fields) stateTag) "tasks") = true →
      isArr (jsGet (jsGet (Json.obj fields) stateTag) "tasks") = true →
      extractTasksFromContainer stateTag (Json.obj fields) =
        .error "Unknown tasks.json format" ∧
      selectRawTasks stateTag (Json.obj fields) = .ok [] := by
  intro st fields h1 h2 h3 _ _
  exact ⟨by simp [extractTasksFromContainer, h1, h2, h3],
         by simp [selectRawTasks, h1, h2, h3]⟩

/-- The single-tag document of the C10 witness: only a `feature` tag, no
`master` tag. -/
def featureOnlyFields : List (String × Json) :=
  [("feature", Json.obj [("tasks", Json.arr [Json.obj [("id", Json.str "1")]])])]

/-- C10 (witness): a document holding only a `feature` tag with tasks,
with the persisted state naming `feature`, is still rejected. -/
theorem direct_tag_without_master_unknown_witness :
    (directTagShape (Json.obj featureOnlyFields) = false ∧
     nestedTagShape (Json.obj featureOnlyFields) = false ∧
     legacyShape (Json.obj featureOnlyFields) = false ∧
     truthy (jsGet (jsGet (Json.obj featureOnlyFields) "feature") "tasks") = true ∧
     isArr (jsGet (jsGet (Json.obj featureOnlyFields) "feature") "tasks") = true) ∧
    extractTasksFromContainer "feature" (Json.obj featureOnlyFields) =
      .error "Unknown tasks.json format" ∧
    selectRawTasks "feature" (Json.obj featureOnlyFields) = .ok [] :=
  ⟨⟨rfl, rfl, rfl, rfl, rfl⟩,
   (direct_tag_without_master_unknown "feature" featureOnlyFields rfl rfl rfl rfl rfl).1,
   (direct_tag_without_master_unknown "feature" featureOnlyFields rfl rfl rfl rfl rfl).2⟩

/-- The channel environment of the C2 counterexample: the MCP server is
reachable but its `getTasks` call throws. -/
def envMcpThrows : ChannelEnv :=
  ⟨some "1.0.0", some "1.0.0", true, true, none, true, some []⟩

/-- C2 (counterexample): with the protocol channel reachable but throwing,
`getTasks` goes straight from the protocol attempt to direct file access —
the CLI channel is attempted zero times, not exactly once as claimed. -/
theorem fallback_skips_cli_counterexample :
    envMcpThrows.mcpServerAvailable = true ∧
    envMcpThrows.mcpGetTasks = none ∧
    (getTasksRun envMcpThrows).1 = [Chan.mcp, Chan.file] ∧
    (getTasksRun envMcpThrows).1.count Chan.cli ≠ 1 := by
  refine ⟨rfl, rfl, rfl, by decide⟩

/-- C2 (amended): in every channel environment, `getTasks` and the
file-fallback `setTaskStatus` attempt the protocol channel at most once
(never retrying it within the operation) and never attempt the CLI
channel: on protocol failure they fall back directly to file access. -/
theorem channel_fallback_no_cli_no_retry :
    (∀ env : ChannelEnv,
      (getTasksRun env).1.count Chan.mcp ≤ 1 ∧ (getTasksRun env).1.count Chan.cli = 0)
  ∧ (∀ (env : ChannelEnv) (now taskId status : String) (doc : List Task),
      (setTaskStatusRun env now taskId status doc).1.count Chan.mcp ≤ 1 ∧
      (setTaskStatusRun env now taskId status doc).1.count Chan.cli = 0) := by
  constructor
  · intro env
    unfold getTasksRun
    rcases h : env.mcpGetTasks with _ | ts <;>
      rcases hf : env.fileTasks with _ | fts <;>
        simp only [h, hf] <;> split <;> simp [List.count_cons, List.count_nil]
  · intro env now taskId status doc
    unfold setTaskStatusRun
    split
    · simp [List.count_cons, List.count_nil]
    · split <;> simp [List.count_cons, List.count_nil]

/-! ### Lemmas about the subtask search -/

/-- The node count of a forest, the measure for nested inductions. -/
def sizeL : List Task → Nat
  | [] => 0
  | .mk _ _ _ _ _ _ subs :: ts => 1 + sizeL subs + sizeL ts

theorem sizeL_cons (t : Task) (ts : List Task) :
    sizeL (t :: ts) = 1 + sizeL t.subtasks + sizeL ts := by
  cases t with
  | mk i ti s c u p subs => simp [sizeL, Task.subtasks]

theorem allNodes_cons (t : Task) (ts : List Task) :
    allNodes (t :: ts) = t :: (allNodes t.subtasks ++ allNodes ts) := by
  cases t with
  | mk i ti s c u p subs => simp [allNodes, Task.subtasks]

theorem self_mem_allNodes {t : Task} {l : List Task} (h : t ∈ l) : t ∈ allNodes l := by
  induction l with
  | nil => cases h
  | cons x xs ih =>
    rw [allNodes_cons]
    rcases List.mem_cons.mp h with h | h
    · exact h ▸ List.mem_cons_self _ _
    · exact List.mem_cons_of_mem _ (List.mem_append_right _ (ih h))

theorem scanDirect_eq_none (now den tid : String) :
    ∀ l : List Task, (∀ s ∈ l, s.id ≠ tid) → scanDirect now den tid l = none := by
  intro l h
  induction l with
  | nil => rfl
  | cons s ss ih =>
    simp only [scanDirect]
    rw [if_neg (h s (List.mem_cons_self _ _)),
        ih (fun x hx => h x (List.mem_cons_of_mem _ hx))]
    rfl

theorem updSubList_eq_none (now den tid : String) :
    ∀ (N : Nat) (l : List Task), sizeL l ≤ N →
      (∀ n ∈ allNodes l, n.id ≠ tid) → updSubList now den tid l = none := by
  intro N
  induction N with
  | zero =>
    intro l hl _
    cases l with
    | nil => rfl
    | cons t ts => rw [sizeL_cons] at hl; omega
  | succ N ih =>
    intro l hl h
    cases l with
    | nil => rfl
    | cons t ts =>
      rw [sizeL_cons] at hl
      have hsubs : ∀ n ∈ allNodes t.subtasks, n.id ≠ tid := fun n hn =>
        h n (by rw [allNodes_cons];
                exact List.mem_cons_of_mem _ (List.mem_append_left _ hn))
      have hts : ∀ n ∈ allNodes ts, n.id ≠ tid := fun n hn =>
        h n (by rw [allNodes_cons];
                exact List.mem_cons_of_mem _ (List.mem_append_right _ hn))
      have hitem : updSubItem now den tid t = none := by
        cases t with
        | mk i ti s c u p subs =>
          simp only [updSubItem]
          rw [scanDirect_eq_none now den tid subs
                (fun x hx => hsubs x (self_mem_allNodes hx)),
              ih subs (by simp only [Task.subtasks] at hl ⊢; omega) hsubs]
      simp only [updSubList, hitem,
        ih ts (by simp only [Task.subtasks] at hl ⊢; omega) hts, Option.map_none']

theorem setMainStatus_eq_none (now den tid : String) :
    ∀ l : List Task, (∀ t ∈ l, t.id ≠ tid) → setMainStatus now den tid l = none := by
  intro l h
  induction l with
  | nil => rfl
  | cons t ts ih =>
    simp only [setMainStatus]
    rw [if_neg (h t (List.mem_cons_self _ _)),
        ih (fun x hx => h x (List.mem_cons_of_mem _ hx))]
    rfl

/-- C8: when the requested id matches no main task and no subtask at any
nesting level of the stored document, the file-fallback `setTaskStatus`
throws `Task with ID ... not found.` and leaves the document unchanged —
the write-back is never reached, and the operation never silently no-ops. -/
theorem setTaskStatus_missing_id_fails :
    ∀ (now taskId status : String) (doc : List Task),
      (∀ n ∈ allNodes doc, n.id ≠ taskId) →
      setTaskStatusFileRun now taskId status doc =
        (.error ("Task with ID " ++ taskId ++ " not found."), doc) := by
  intro now tid st doc h
  have hmain : setMainStatus now (denormalizeStatus st) tid doc = none :=
    setMainStatus_eq_none _ _ _ doc (fun t ht => h t (self_mem_allNodes ht))
  have hsub : updSubList now (denormalizeStatus st) tid doc = none :=
    updSubList_eq_none _ _ _ (sizeL doc) doc le_rfl h
  simp [setTaskStatusFileRun, setTaskStatusOnTasks, hmain, hsub]

/-- The sibling subtask of the demo document (`1.1` under `1`). -/
def subSibling : Task :=
  .mk "1.1" "Sibling" "pending" "2020-01-01T00:00:00.000Z" "2020-01-01T00:00:00.000Z" none []

/-- The target subtask of the demo document (`1.2` under `1`). -/
def subTarget : Task :=
  .mk "1.2" "Target" "pending" "2020-01-01T00:00:00.000Z" "2020-01-01T00:00:00.000Z" none []

/-- The demo document: main task `1` with subtasks `1.1` and `1.2`
(the extracted task list of a tagged `tasks.json`). -/
def parentTask : Task :=
  .mk "1" "Parent" "pending" "2020-01-01T00:00:00.000Z" "2020-01-01T00:00:00.000Z" none
    [subSibling, subTarget]

/-- C8 (witness): id `99` appears nowhere in the demo document, and the
mutation fails without changing it. -/
theorem setTaskStatus_missing_id_fails_witness :
    (∀ n ∈ allNodes [parentTask], n.id ≠ "99") ∧
    setTaskStatusFileRun "2024-05-05T00:00:00.000Z" "99" "completed" [parentTask] =
      (.error ("Task with ID " ++ "99" ++ " not found."), [parentTask]) := by
  have h : ∀ n ∈ allNodes [parentTask], n.id ≠ "99" := by
    simp [allNodes, parentTask, subSibling, subTarget, Task.subtasks, Task.id]
  exact ⟨h, setTaskStatus_missing_id_fails "2024-05-05T00:00:00.000Z" "99" "completed"
    [parentTask] h⟩

/-! ### C1: `setTaskStatus` on a nested subtask -/

/-- C1 (counterexample): `setTaskStatus("1.2", "completed")` on the demo
document updates the subtask's status (to the denormalized `done`) and the
subtask's `updated` timestamp, but the parent task `1` keeps its old
`updated` timestamp `2020-01-01...` — the claim's "refreshes ... the
parent task 1's updated timestamp" fails (only `setSubtaskStatus` and
`updateSubtask` refresh the parent). -/
theorem setTaskStatus_parent_updated_counterexample :
    setTaskStatusOnTasks "2024-05-05T00:00:00.000Z" "1.2" "completed" [parentTask] =
      some [Task.mk "1" "Parent" "pending"
              "2020-01-01T00:00:00.000Z" "2020-01-01T00:00:00.000Z" none
              [subSibling,
               Task.mk "1.2" "Target" "done"
                 "2020-01-01T00:00:00.000Z" "2024-05-05T00:00:00.000Z" none []]] ∧
    ("2020-01-01T00:00:00.000Z" : String) ≠ "2024-05-05T00:00:00.000Z" :=
  ⟨by simp [setTaskStatusOnTasks, setMainStatus, updSubList, updSubItem, scanDirect,
        parentTask, subSibling, subTarget, Task.id, Task.setStatusUpdated,
        denormalizeStatus], by decide⟩

theorem scanDirect_found (now den tid : String) (s : Task) (sPost : List Task)
    (hs : s.id = tid) :
    ∀ sPre : List Task, (∀ x ∈ sPre, x.id ≠ tid) →
      scanDirect now den tid (sPre ++ s :: sPost) =
        some (sPre ++ s.setStatusUpdated den now :: sPost) := by
  intro sPre h
  induction sPre with
  | nil => simp [scanDirect, hs]
  | cons x xs ih =>
    simp only [List.cons_append, scanDirect, List.append_eq]
    rw [if_neg (h x (List.mem_cons_self _ _)),
        ih (fun y hy => h y (List.mem_cons_of_mem _ hy))]
    rfl

theorem updSubItem_eq_none (now den tid : String) (t : Task)
    (h : ∀ n ∈ allNodes t.subtasks, n.id ≠ tid) :
    updSubItem now den tid t = none := by
  cases t with
  | mk i ti s c u p subs =>
    simp only [Task.subtasks] at h
    simp only [updSubItem]
    rw [scanDirect_eq_none now den tid subs (fun x hx => h x (self_mem_allNodes hx)),
        updSubList_eq_none now den tid (sizeL subs) subs le_rfl h]

theorem updSubList_found (now den tid : String) (p s : Task)
    (postL sPre sPost : List Task)
    (hp : p.subtasks = sPre ++ s :: sPost)
    (hsPre : ∀ x ∈ sPre, x.id ≠ tid) (hs : s.id = tid) :
    ∀ preL : List Task, (∀ n ∈ allNodes preL, n.id ≠ tid) →
      updSubList now den tid (preL ++ p :: postL) =
        some (preL ++ p.withSubtasks (sPre ++ s.setStatusUpdated den now :: sPost)
                :: postL) := by
  intro preL h
  induction preL with
  | nil =>
    have hitem : updSubItem now den tid p =
        some (p.withSubtasks (sPre ++ s.setStatusUpdated den now :: sPost)) := by
      cases p with
      | mk i ti st c u pid subs =>
        simp only [Task.subtasks] at hp
        subst hp
        simp only [updSubItem, Task.withSubtasks]
        rw [scanDirect_found now den tid s sPost hs sPre hsPre]
    simp [updSubList, hitem]
  | cons t ts ih =>
    have hsubs : ∀ n ∈ allNodes t.subtasks, n.id ≠ tid := fun n hn =>
      h n (by rw [allNodes_cons];
              exact List.mem_cons_of_mem _ (List.mem_append_left _ hn))
    have hts : ∀ n ∈ allNodes ts, n.id ≠ tid := fun n hn =>
      h n (by rw [allNodes_cons];
              exact List.mem_cons_of_mem _ (List.mem_append_right _ hn))
    simp only [List.cons_append, updSubList,
      updSubItem_eq_none now den tid t hsubs, List.append_eq]
    rw [ih hts]
    rfl

/-- C1 (amended): on any extracted task document where the target id names
a direct subtask of some main task, is not the id of any main task, and
occurs nowhere in the main tasks preceding the parent, the file-fallback
`setTaskStatus` rewrites exactly that subtask — status set to the
denormalized token and `updated` set to now — and leaves everything else
identical: every sibling subtask is the very same value, and the parent
changes only its `subtasks` array, keeping its own `updated` timestamp
(the parent timestamp is not refreshed, contrary to the original claim). -/
theorem setTaskStatus_subtask_frame :
    ∀ (now status tid : String) (preL postL sPre sPost : List Task) (p s : Task),
      (∀ t ∈ preL ++ p :: postL, t.id ≠ tid) →
      (∀ n ∈ allNodes preL, n.id ≠ tid) →
      p.subtasks = sPre ++ s :: sPost →
      (∀ x ∈ sPre, x.id ≠ tid) →
      s.id = tid →
      setTaskStatusOnTasks now tid status (preL ++ p :: postL) =
        some (preL ++
          p.withSubtasks
            (sPre ++ s.setStatusUpdated (denormalizeStatus status) now :: sPost)
          :: postL) := by
  intro now status tid preL postL sPre sPost p s hmain hpre hp hsPre hs
  have h1 : setMainStatus now (denormalizeStatus status) tid (preL ++ p :: postL) = none :=
    setMainStatus_eq_none _ _ _ _ hmain
  have h2 := updSubList_found now (denormalizeStatus status) tid p s postL sPre sPost
    hp hsPre hs preL hpre
  simp [setTaskStatusOnTasks, h1, h2]

/-- C1 (witness): the amended statement at the demo document, updating
subtask `1.2` to `completed`. -/
theorem setTaskStatus_subtask_frame_witness :
    ((∀ t ∈ ([] : List Task) ++ parentTask :: [], t.id ≠ "1.2") ∧
     (∀ n ∈ allNodes ([] : List Task), n.id ≠ "1.2") ∧
     parentTask.subtasks = [subSibling] ++ subTarget :: [] ∧
     (∀ x ∈ [subSibling], x.id ≠ "1.2") ∧
     subTarget.id = "1.2") ∧
    setTaskStatusOnTasks "2024-05-05T00:00:00.000Z" "1.2" "completed"
        (([] : List Task) ++ parentTask :: []) =
      some ([] ++
        parentTask.withSubtasks
          ([subSibling] ++
            subTarget.setStatusUpdated (denormalizeStatus "completed")
              "2024-05-05T00:00:00.000Z" :: [])
        :: []) :=
  ⟨⟨by decide, by simp [allNodes], rfl, by decide, rfl⟩,
   setTaskStatus_subtask_frame "2024-05-05T00:00:00.000Z" "completed" "1.2"
     [] [] [subSibling] [] parentTask subTarget
     (by decide) (by simp [allNodes]) rfl (by decide) rfl⟩

/-! ### C9: the progress counters -/

theorem countAllList_spec :
    ∀ (N : Nat) (l : List Task), sizeL l ≤ N → ∀ co : Counts,
      countAllList co l =
        ⟨co.total + (allNodes l).length,
         co.completed + (allNodes l).countP (fun t => normalizeStatus t.status == "completed"),
         co.inProgress + (allNodes l).countP (fun t => normalizeStatus t.status == "in-progress"),
         co.todo + (allNodes l).countP (fun t => normalizeStatus t.status == "todo"),
         co.blocked + (allNodes l).countP (fun t => normalizeStatus t.status == "blocked")⟩ := by
  intro N
  induction N with
  | zero =>
    intro l hl co
    cases l with
    | nil => simp [countAllList, allNodes]
    | cons t ts => rw [sizeL_cons] at hl; omega
  | succ N ih =>
    intro l hl co
    cases l with
    | nil => simp [countAllList, allNodes]
    | cons t ts =>
      rw [sizeL_cons] at hl
      cases t with
      | mk i ti st c u p subs =>
        simp only [Task.subtasks] at hl
        have hsubs : sizeL subs ≤ N := by omega
        have hts : sizeL ts ≤ N := by omega
        simp only [countAllList, countAllTask]
        rw [ih subs hsubs, ih ts hts, allNodes_cons]
        simp only [Task.subtasks, Task.status, List.countP_cons, List.countP_append,
          List.length_cons, List.length_append, Counts.mk.injEq]
        simp only [tallyOne]
        split_ifs with h1 h2 h3 h4 <;>
          simp_all [beq_iff_eq] <;> omega

/-- C9: for every task collection, the legacy top-level fields of
`getTaskProgress` (total, completed, inProgress, todo, blocked) coincide
field by field with its `allItems` group, and `allItems` counts every task
together with all recursively nested subtasks: its `total` is the node
count of the forest and each status counter counts the nodes whose
normalized status matches. -/
theorem progress_legacy_matches_allItems :
    ∀ tasks : List Task,
      ((getTaskProgress tasks).total = (getTaskProgress tasks).allItems.total ∧
       (getTaskProgress tasks).completed = (getTaskProgress tasks).allItems.completed ∧
       (getTaskProgress tasks).inProgress = (getTaskProgress tasks).allItems.inProgress ∧
       (getTaskProgress tasks).todo = (getTaskProgress tasks).allItems.todo ∧
       (getTaskProgress tasks).blocked = (getTaskProgress tasks).allItems.blocked) ∧
      ((getTaskProgress tasks).allItems.total = (allNodes tasks).length ∧
       (getTaskProgress tasks).allItems.completed =
         (allNodes tasks).countP (fun t => normalizeStatus t.status == "completed") ∧
       (getTaskProgress tasks).allItems.inProgress =
         (allNodes tasks).countP (fun t => normalizeStatus t.status == "in-progress") ∧
       (getTaskProgress tasks).allItems.todo =
         (allNodes tasks).countP (fun t => normalizeStatus t.status == "todo") ∧
       (getTaskProgress tasks).allItems.blocked =
         (allNodes tasks).countP (fun t => normalizeStatus t.status == "blocked")) := by
  intro tasks
  have h := countAllList_spec (sizeL tasks) tasks le_rfl Counts.zero
  refine ⟨⟨rfl, rfl, rfl, rfl, rfl⟩, ?_⟩
  rw [show (getTaskProgress tasks).allItems = countAllList Counts.zero tasks from rfl, h]
  simp [Counts.zero]

/-! ### C3: the hierarchy builder -/

theorem hasDot_iff (s : String) : hasDot s = true ↔ '.' ∈ s.data := by
  simp [hasDot, List.any_eq_true]

theorem hasDot_false_iff (s : String) : hasDot s = false ↔ '.' ∉ s.data := by
  rw [← Bool.not_eq_true, hasDot_iff]

theorem count_after_last_dot :
    ∀ l : List Char, '.' ∈ l →
      ((l.dropWhile (fun c => c ≠ '.')).drop 1).count '.' + 1 = l.count '.' := by
  intro l hl
  induction l with
  | nil => cases hl
  | cons c cs ih =>
    by_cases hc : c = '.'
    · subst hc
      simp [List.dropWhile_cons, List.count_cons]
    · have hcs : '.' ∈ cs := by
        rcases List.mem_cons.mp hl with h | h
        · exact absurd h.symm hc
        · exact h
      have hne : ('.' : Char) ≠ c := fun h => hc h.symm
      simp only [List.dropWhile_cons]
      rw [if_pos (by simp [hc]), ih hcs, List.count_cons]
      simp [hne, hc]

theorem dotDepth_getParentId {s : String} (h : hasDot s = true) :
    dotDepth (getParentId s) + 1 = dotDepth s := by
  have hmem : '.' ∈ s.data := (hasDot_iff s).mp h
  have hmem' : '.' ∈ s.data.reverse := List.mem_reverse.mpr hmem
  have := count_after_last_dot s.data.reverse hmem'
  simp only [dotDepth, getParentId, List.count_reverse] at this ⊢
  exact this

theorem dotDepth_getParentId_lt {s : String} (h : hasDot s = true) :
    dotDepth (getParentId s) < dotDepth s := by
  have := dotDepth_getParentId h
  omega

theorem mem_insertSorted (x a : String) :
    ∀ l : List String, a ∈ insertSorted x l ↔ a = x ∨ a ∈ l := by
  intro l
  induction l with
  | nil => simp [insertSorted]
  | cons y ys ih =>
    simp only [insertSorted]
    split
    · simp [List.mem_cons]
    · simp only [List.mem_cons, ih]
      tauto

theorem mem_sortIds (a : String) : ∀ l : List String, a ∈ sortIds l ↔ a ∈ l := by
  intro l
  induction l with
  | nil => simp [sortIds]
  | cons x xs ih =>
    simp only [sortIds, mem_insertSorted, ih, List.mem_cons]

theorem le_foldl_max : ∀ (l : List Nat) (a : Nat), a ≤ l.foldl Nat.max a := by
  intro l
  induction l with
  | nil => intro a; simp
  | cons b bs ih =>
    intro a
    calc a ≤ Nat.max a b := Nat.le_max_left _ _
    _ ≤ bs.foldl Nat.max (Nat.max a b) := ih _

theorem mem_le_foldl_max : ∀ (l : List Nat) (a x : Nat), x ∈ l → x ≤ l.foldl Nat.max a := by
  intro l
  induction l with
  | nil => intro a x hx; cases hx
  | cons b bs ih =>
    intro a x hx
    rcases List.mem_cons.mp hx with h | h
    · subst h
      calc x ≤ Nat.max a x := Nat.le_max_right _ _
      _ ≤ bs.foldl Nat.max (Nat.max a x) := le_foldl_max _ _
    · exact ih _ x h

theorem mapSet_absent (m : List (String × Task)) (k : String) (v : Task)
    (h : k ∉ m.map Prod.fst) : mapSet m k v = m ++ [(k, v)] := by
  have hany : m.any (fun p => p.1 = k) = false := by
    rw [List.any_eq_false]
    intro p hp
    simp only [decide_eq_true_eq]
    exact fun he => h (he ▸ List.mem_map_of_mem Prod.fst hp)
  simp [mapSet, hany]

theorem foldl_mapSet_eq :
    ∀ (ts : List Task) (m : List (String × Task)),
      (m.map Prod.fst ++ ts.map Task.id).Nodup →
      ts.foldl (fun m t => mapSet m t.id t) m = m ++ ts.map (fun t => (t.id, t)) := by
  intro ts
  induction ts with
  | nil => intro m _; simp
  | cons t ts ih =>
    intro m h
    have hk : t.id ∉ m.map Prod.fst := by
      intro hmem
      have hd := (List.nodup_append.mp (by simpa using h)).2.2
      exact hd hmem (List.mem_cons_self _ _)
    have hrest : ((m ++ [(t.id, t)]).map Prod.fst ++ ts.map Task.id).Nodup := by
      rw [List.map_append]
      simp only [List.map_cons, List.map_nil]
      rw [List.append_assoc]
      simpa [List.singleton_append] using h
    calc (t :: ts).foldl (fun m t => mapSet m t.id t) m
        = ts.foldl (fun m t => mapSet m t.id t) (mapSet m t.id t) := rfl
      _ = ts.foldl (fun m t => mapSet m t.id t) (m ++ [(t.id, t)]) := by
            rw [mapSet_absent m t.id t hk]
      _ = (m ++ [(t.id, t)]) ++ ts.map (fun t => (t.id, t)) := ih _ hrest
      _ = m ++ (t :: ts).map (fun t => (t.id, t)) := by simp

theorem buildTaskMap_eq (tasks : List Task) (h : (tasks.map Task.id).Nodup) :
    buildTaskMap tasks = tasks.map (fun t => (t.id, t)) := by
  simpa [buildTaskMap] using foldl_mapSet_eq tasks [] (by simpa using h)

theorem hierKeys_eq (tasks : List Task) (h : (tasks.map Task.id).Nodup) :
    hierKeys tasks = tasks.map Task.id := by
  rw [hierKeys, buildTaskMap_eq tasks h, List.map_map]
  rfl

theorem find?_pair :
    ∀ (tasks : List Task), (tasks.map Task.id).Nodup → ∀ t ∈ tasks,
      (tasks.map (fun t => (t.id, t))).find? (fun p => p.1 = t.id) = some (t.id, t) := by
  intro tasks
  induction tasks with
  | nil => intro _ t ht; cases ht
  | cons x xs ih =>
    intro h t ht
    rcases List.mem_cons.mp ht with he | hm
    · subst he
      simp [List.find?_cons]
    · have hne : x.id ≠ t.id := by
        intro he
        have hx : x.id ∉ xs.map Task.id := (List.nodup_cons.mp (by simpa using h)).1
        exact hx (he ▸ List.mem_map_of_mem Task.id hm)
      simp only [List.map_cons, List.find?_cons, decide_eq_false hne]
      exact ih (List.nodup_cons.mp (by simpa using h)).2 t hm

theorem mapGet_buildTaskMap (tasks : List Task) (h : (tasks.map Task.id).Nodup) :
    ∀ t ∈ tasks, mapGet (buildTaskMap tasks) t.id = some t := by
  intro t ht
  rw [mapGet, buildTaskMap_eq tasks h, find?_pair tasks h t ht]
  rfl

theorem buildNode_id (tm : List (String × Task)) (sorted keys : List String) :
    ∀ (f : Nat) (i : String), (buildNode tm sorted keys f i).id = i := by
  intro f i
  cases f with
  | zero => simp [buildNode, Task.id]
  | succ f =>
    cases h : mapGet tm i with
    | none => simp [buildNode, h, Task.id]
    | some t =>
      cases t with
      | mk a b c d e p subs => simp [buildNode, h, Task.id]

theorem buildNode_succ (tm : List (String × Task)) (sorted keys : List String)
    (f : Nat) (i : String) {i0 ti st cr up pid subs0 : _}
    (h : mapGet tm i = some (.mk i0 ti st cr up pid subs0)) :
    buildNode tm sorted keys (f + 1) i =
      .mk i ti st cr up
        (if hasDot i ∧ keys.contains (getParentId i) then some (getParentId i) else pid)
        ((sorted.filter (fun x => hasDot x && getParentId x = i)).map
          (buildNode tm sorted keys f)) := by
  simp [buildNode, h]

theorem mem_allNodes_trans :
    ∀ (N : Nat) (l : List Task), sizeL l ≤ N →
      ∀ x ∈ allNodes l, ∀ c ∈ x.subtasks, c ∈ allNodes l := by
  intro N
  induction N with
  | zero =>
    intro l hl x hx c _
    cases l with
    | nil => simp [allNodes] at hx
    | cons t ts => rw [sizeL_cons] at hl; omega
  | succ N ih =>
    intro l hl x hx c hc
    cases l with
    | nil => simp [allNodes] at hx
    | cons t ts =>
      rw [sizeL_cons] at hl
      rw [allNodes_cons] at hx ⊢
      rcases List.mem_cons.mp hx with he | hm
      · subst he
        exact List.mem_cons_of_mem _ (List.mem_append_left _ (self_mem_allNodes hc))
      · rcases List.mem_append.mp hm with h1 | h2
        · exact List.mem_cons_of_mem _
            (List.mem_append_left _ (ih t.subtasks (by omega) x h1 c hc))
        · exact List.mem_cons_of_mem _
            (List.mem_append_right _ (ih ts (by omega) x h2 c hc))

theorem processTaskHierarchy_eq (tasks : List Task)
    (hNoSub : ∀ t ∈ tasks, t.subtasks.isEmpty = true)
    (hDot : ∃ t ∈ tasks, hasDot t.id = true) :
    processTaskHierarchy tasks =
      (hierRootIds tasks).map (hierBuild tasks (hierMaxD tasks + 2)) := by
  have h1 : tasks.any (fun t => !t.subtasks.isEmpty) = false := by
    rw [List.any_eq_false]
    intro t ht
    simp [hNoSub t ht]
  have h2 : tasks.any (fun t => hasDot t.id) = true := by
    rw [List.any_eq_true]
    exact hDot
  simp [processTaskHierarchy, h1, h2]

theorem exists_task_of_mem_keys (tasks : List Task)
    (hNodup : (tasks.map Task.id).Nodup) (i : String) (hi : i ∈ hierKeys tasks) :
    ∃ t ∈ tasks, t.id = i ∧ mapGet (buildTaskMap tasks) i = some t := by
  rw [hierKeys_eq tasks hNodup] at hi
  obtain ⟨t, ht, hid⟩ := List.mem_map.mp hi
  exact ⟨t, ht, hid, hid ▸ mapGet_buildTaskMap tasks hNodup t ht⟩

theorem dotDepth_le_maxD (tasks : List Task) (i : String) (hi : i ∈ hierKeys tasks) :
    dotDepth i ≤ hierMaxD tasks :=
  mem_le_foldl_max _ 0 _ (List.mem_map_of_mem dotDepth hi)

theorem mem_hierRootIds (tasks : List Task) (i : String) (hi : i ∈ hierKeys tasks)
    (hcond : hasDot i = false ∨ (hierKeys tasks).contains (getParentId i) = false) :
    i ∈ hierRootIds tasks := by
  rw [hierRootIds]
  refine List.mem_filter.mpr ⟨(mem_sortIds i _).mpr hi, ?_⟩
  rcases hcond with h | h
  · simp [h]
  · have hnm : getParentId i ∉ hierKeys tasks := by simpa using h
    simp [hnm]

theorem key_reachable (tasks : List Task)
    (hNodup : (tasks.map Task.id).Nodup)
    (hNoSub : ∀ t ∈ tasks, t.subtasks.isEmpty = true)
    (hDot : ∃ t ∈ tasks, hasDot t.id = true) :
    ∀ (d : Nat) (i : String), dotDepth i ≤ d → i ∈ hierKeys tasks →
      ∃ f, hierMaxD tasks + 2 ≤ f + dotDepth i ∧
        hierBuild tasks f i ∈ allNodes (processTaskHierarchy tasks) := by
  intro d
  induction d with
  | zero =>
    intro i hdep hkey
    have hnd : hasDot i = false := by
      rw [hasDot_false_iff]
      exact List.count_eq_zero.mp (Nat.le_zero.mp hdep)
    refine ⟨hierMaxD tasks + 2, by omega, ?_⟩
    rw [processTaskHierarchy_eq tasks hNoSub hDot]
    exact self_mem_allNodes
      (List.mem_map_of_mem _ (mem_hierRootIds tasks i hkey (Or.inl hnd)))
  | succ d ih =>
    intro i hdep hkey
    by_cases hd : hasDot i = true
    · by_cases hp : (hierKeys tasks).contains (getParentId i) = true
      · have hpkey : getParentId i ∈ hierKeys tasks := by
          simpa using hp
        have hdp : dotDepth (getParentId i) ≤ d := by
          have := dotDepth_getParentId hd
          omega
        obtain ⟨g, hg, hmem⟩ := ih (getParentId i) hdp hpkey
        have hgd : dotDepth (getParentId i) ≤ hierMaxD tasks := dotDepth_le_maxD _ _ hpkey
        obtain ⟨g', rfl⟩ : ∃ g', g = g' + 1 := ⟨g - 1, by omega⟩
        obtain ⟨tp, htp, hidp, hget⟩ := exists_task_of_mem_keys tasks hNodup _ hpkey
        have hkid : i ∈ (hierSorted tasks).filter
            (fun x => hasDot x && getParentId x = getParentId i) :=
          List.mem_filter.mpr ⟨(mem_sortIds i _).mpr hkey, by simp [hd]⟩
        have hchild : hierBuild tasks g' i ∈ (hierBuild tasks (g' + 1) (getParentId i)).subtasks := by
          cases tp with
          | mk a b c dd e p0 subs0 =>
            rw [hierBuild, hierBuild, buildNode_succ _ _ _ g' _ hget]
            simp only [Task.subtasks]
            exact List.mem_map_of_mem _ hkid
        refine ⟨g', by have := dotDepth_getParentId hd; omega, ?_⟩
        exact mem_allNodes_trans (sizeL (processTaskHierarchy tasks)) _ le_rfl _ hmem _ hchild
      · refine ⟨hierMaxD tasks + 2, by omega, ?_⟩
        rw [processTaskHierarchy_eq tasks hNoSub hDot]
        exact self_mem_allNodes (List.mem_map_of_mem _
          (mem_hierRootIds tasks i hkey (Or.inr (by simpa using hp))))
    · refine ⟨hierMaxD tasks + 2, by omega, ?_⟩
      rw [processTaskHierarchy_eq tasks hNoSub hDot]
      exact self_mem_allNodes (List.mem_map_of_mem _
        (mem_hierRootIds tasks i hkey (Or.inl (by simpa using hd))))

/-- C3: on an input task list with unique ids (the data-model invariant),
no pre-existing subtasks and at least one dotted id, the hierarchy builder
returns a forest in which every dotted-id task whose parent id (the
substring before its last dot) is present in the input appears inside that
parent's `subtasks` with its `parentId` back-reference set, and every
dotted-id task whose parent id is absent is kept as a root task rather
than dropped. -/
theorem hierarchy_attach_or_root :
    ∀ tasks : List Task,
      (∀ t ∈ tasks, t.subtasks.isEmpty = true) →
      (∃ t ∈ tasks, hasDot t.id = true) →
      (tasks.map Task.id).Nodup →
      ∀ t ∈ tasks, hasDot t.id = true →
        ((tasks.map Task.id).contains (getParentId t.id) = true →
          ∃ p ∈ allNodes (processTaskHierarchy tasks), p.id = getParentId t.id ∧
            ∃ c ∈ p.subtasks, c.id = t.id ∧ c.parentId = some (getParentId t.id)) ∧
        ((tasks.map Task.id).contains (getParentId t.id) = false →
          ∃ r ∈ processTaskHierarchy tasks, r.id = t.id) := by
  intro tasks hNoSub hDot hNodup t ht hd
  have hkeys := hierKeys_eq tasks hNodup
  have htkey : t.id ∈ hierKeys tasks := by
    rw [hkeys]
    exact List.mem_map_of_mem _ ht
  constructor
  · intro hpc
    have hpc' : (hierKeys tasks).contains (getParentId t.id) = true := by
      rw [hkeys]
      exact hpc
    have hpkey : getParentId t.id ∈ hierKeys tasks := by simpa using hpc'
    obtain ⟨g, hg, hmem⟩ := key_reachable tasks hNodup hNoSub hDot
      (dotDepth (getParentId t.id)) (getParentId t.id) le_rfl hpkey
    have hgd : dotDepth (getParentId t.id) ≤ hierMaxD tasks := dotDepth_le_maxD _ _ hpkey
    obtain ⟨g', rfl⟩ : ∃ g', g = g' + 1 := ⟨g - 1, by omega⟩
    obtain ⟨tp, htp, hidp, hget⟩ := exists_task_of_mem_keys tasks hNodup _ hpkey
    refine ⟨hierBuild tasks (g' + 1) (getParentId t.id), hmem, ?_, ?_⟩
    · rw [hierBuild]
      exact buildNode_id _ _ _ _ _
    · have hkid : t.id ∈ (hierSorted tasks).filter
          (fun x => hasDot x && getParentId x = getParentId t.id) :=
        List.mem_filter.mpr ⟨(mem_sortIds _ _).mpr htkey, by simp [hd]⟩
      refine ⟨hierBuild tasks g' t.id, ?_, ?_, ?_⟩
      · cases tp with
        | mk a b c dd e p0 subs0 =>
          rw [hierBuild, hierBuild, buildNode_succ _ _ _ g' _ hget]
          simp only [Task.subtasks]
          exact List.mem_map_of_mem _ hkid
      · rw [hierBuild]
        exact buildNode_id _ _ _ _ _
      · have hg1 : 1 ≤ g' := by omega
        obtain ⟨g'', rfl⟩ : ∃ g'', g' = g'' + 1 := ⟨g' - 1, by omega⟩
        obtain ⟨tc, htc, hidc, hgetc⟩ := exists_task_of_mem_keys tasks hNodup _ htkey
        cases tc with
        | mk a2 b2 c2 d2 e2 p2 subs2 =>
          rw [hierBuild, buildNode_succ _ _ _ g'' _ hgetc]
          simp only [Task.parentId]
          rw [if_pos ⟨hd, hpc'⟩]
  · intro hpc
    rw [processTaskHierarchy_eq tasks hNoSub hDot]
    refine ⟨hierBuild tasks (hierMaxD tasks + 2) t.id,
      List.mem_map_of_mem _ (mem_hierRootIds tasks _ htkey (Or.inr ?_)), ?_⟩
    · rw [hkeys]
      exact hpc
    · rw [hierBuild]
      exact buildNode_id _ _ _ _ _

/-- The main task of the hierarchy demo (`1`). -/
def hierDemoA : Task := .mk "1" "A" "pending" "" "" none []

/-- The attachable dotted task of the hierarchy demo (`1.2`; its parent
`1` is present). -/
def hierDemoB : Task := .mk "1.2" "B" "pending" "" "" none []

/-- The orphan dotted task of the hierarchy demo (`2.5`; no task `2`). -/
def hierDemoC : Task := .mk "2.5" "C" "pending" "" "" none []

/-- The hierarchy demo input: flat list, unique ids, no pre-existing
subtasks, dotted ids present. -/
def hierDemoTasks : List Task := [hierDemoA, hierDemoB, hierDemoC]

/-- C3 (witness): the orphan / attach behavior at the concrete id set
`["1", "1.2", "2.5"]`: `1.2` is attached under `1` with its back-reference
set, and the orphan `2.5` (no task `2`) is kept as a root. -/
theorem hierarchy_attach_or_root_witness :
    ((∀ t ∈ hierDemoTasks, t.subtasks.isEmpty = true) ∧
     (∃ t ∈ hierDemoTasks, hasDot t.id = true) ∧
     (hierDemoTasks.map Task.id).Nodup) ∧
    (∃ p ∈ allNodes (processTaskHierarchy hierDemoTasks),
      p.id = getParentId hierDemoB.id ∧
      ∃ c ∈ p.subtasks, c.id = hierDemoB.id ∧
        c.parentId = some (getParentId hierDemoB.id)) ∧
    (∃ r ∈ processTaskHierarchy hierDemoTasks, r.id = hierDemoC.id) :=
  ⟨⟨by decide, ⟨hierDemoB, by simp [hierDemoTasks], by decide⟩, by decide⟩,
   (hierarchy_attach_or_root hierDemoTasks (by decide)
      ⟨hierDemoB, by simp [hierDemoTasks], by decide⟩ (by decide)
      hierDemoB (by simp [hierDemoTasks]) (by decide)).1 (by decide),
   (hierarchy_attach_or_root hierDemoTasks (by decide)
      ⟨hierDemoB, by simp [hierDemoTasks], by decide⟩ (by decide)
      hierDemoC (by simp [hierDemoTasks]) (by decide)).2 (by decide)⟩

end TaskMaster
